import Mathlib

/-!
Shallow embedding of the transaction-encoding pipeline of
`desktop/tsv_encorder_for_MoneyManager/scripts` (`preset_manager.py`,
`table_transformer.py`, `value_filler.py`, `encoder_core.py`) and of the
`resize_and_crop` routine of `desktop/docs/aspect_resize_gui.py`.

Python strings are modelled as `List Char` (`Str`).  Python's `str.strip()`
is modelled with an explicit whitespace set (ASCII whitespace plus the
ideographic space); the full Unicode White_Space set of Python is wider, but
no behaviour relevant here depends on the difference.  Python `float`/`int`
literals are parsed into exact rationals/integers over the plain decimal
grammar (optional sign, digits, at most one dot); exponents, `inf`/`nan`,
underscores and float rounding/underflow are outside the grammar the CSV
data uses and are not modelled.  File I/O (reading the CSV, reading and
writing the YAML preset, writing the TSV) is modelled by passing the parsed
content in and returning the would-be written content; Python exceptions are
modelled with `Except`.
-/

abbrev Str := List Char

/-- Whitespace set used by `str.strip()` in this model: ASCII whitespace
plus the ideographic space U+3000. -/
def isSpaceChar (c : Char) : Bool :=
  c = ' ' || c = '\t' || c = '\n' || c = '\r' || c = '\x0b' || c = '\x0c' || c = '　'

/-- Python `s.strip()`: drop leading and trailing whitespace. -/
def strip (s : Str) : Str :=
  ((s.dropWhile isSpaceChar).reverse.dropWhile isSpaceChar).reverse

/-- Python `s.startswith(pat)` on lists, used to define substring search. -/
def leadsWith : Str → Str → Bool
  | [], _ => true
  | _ :: _, [] => false
  | p :: ps, c :: cs => p = c && leadsWith ps cs

/-- Python `pat in s` (substring occurrence). -/
def occursIn : Str → Str → Bool
  | pat, [] => pat.isEmpty
  | pat, c :: cs => leadsWith pat (c :: cs) || occursIn pat cs

/-- Numeric value of a digit string (most significant digit first). -/
def digitsVal : List Char → ℕ
  | [] => 0
  | c :: cs => (c.toNat - 48) * 10 ^ cs.length + digitsVal cs

/-- Python `float(v)` on the plain decimal grammar: surrounding whitespace
stripped, optional sign, digits with at most one dot and at least one digit.
Returns the exact rational value. -/
def pyFloat? (v : Str) : Option ℚ :=
  let s := strip v
  let sgn : ℚ := if s.headD ' ' = '-' then -1 else 1
  let t := if s.headD ' ' = '-' || s.headD ' ' = '+' then s.tail else s
  let ip := t.takeWhile Char.isDigit
  let rest := t.drop ip.length
  if rest = [] then
    if ip = [] then none else some (sgn * (digitsVal ip : ℚ))
  else if rest.headD ' ' = '.' ∧ rest.tail.all Char.isDigit ∧ (ip ≠ [] ∨ rest.tail ≠ []) then
    some (sgn * ((digitsVal ip : ℚ) + (digitsVal rest.tail : ℚ) / (10 : ℚ) ^ rest.tail.length))
  else none

/-- Python `int(v)` on the plain decimal grammar: surrounding whitespace
stripped, optional sign, a non-empty digit string. -/
def pyInt? (v : Str) : Option Int :=
  let s := strip v
  let sgn : Int := if s.headD ' ' = '-' then -1 else 1
  let t := if s.headD ' ' = '-' || s.headD ' ' = '+' then s.tail else s
  if t ≠ [] ∧ t.all Char.isDigit then some (sgn * (digitsVal t : Int)) else none

/-- Python `int(float)` truncation toward zero on rationals. -/
def truncRat (q : ℚ) : Int :=
  if 0 ≤ q then ⌊q⌋ else ⌈q⌉

/-- Separator join, Python `sep.join(parts)`. -/
def joinSep (sep : Str) : List Str → Str
  | [] => []
  | [x] => x
  | x :: xs => x ++ sep ++ joinSep sep xs

/-! ## preset_manager.py -/

/-- Normalized store-mapping entry: `(category, sub_category)` (both present
after `load_preset` normalization). -/
abbrev CatSub := Str × Str

/-- Dataclass `Preset`: preset name and the normalized `store_mapping`.
A Python dict is modelled as an association list in insertion order with
unique keys; lookup is first-match. -/
structure Preset where
  name : Str
  store_mapping : List (Str × CatSub)

/-- Python dict indexing `m[k]` as an association-list lookup. -/
def dictGet? (m : List (Str × CatSub)) (k : Str) : Option CatSub :=
  match m with
  | [] => none
  | p :: rest => if p.1 = k then some p.2 else dictGet? rest k

/-- Python dict assignment `m[k] = v`: update in place when the key exists
(keeping its position), otherwise append at the end. -/
def dictSet (m : List (Str × CatSub)) (k : Str) (v : CatSub) : List (Str × CatSub) :=
  if m.any (fun p => decide (p.1 = k)) then
    m.map (fun p => if p.1 = k then (k, v) else p)
  else m ++ [(k, v)]

/-- The normalization loop of `load_preset`: build a fresh dict whose keys
and values are stripped (`normalized[str(key).strip()] = {stripped values}`,
iterating the raw mapping in order, later duplicates overwriting). -/
def normalizeMapping (raw : List (Str × CatSub)) : List (Str × CatSub) :=
  raw.foldl (fun acc kv => dictSet acc (strip kv.1) (strip kv.2.1, strip kv.2.2)) []

/-- `load_preset`, modelled on the parsed YAML content: the raw
`store_mapping` (keys with their `category`/`sub_category` values, a missing
value key reading as `""`) is normalized entry by entry.  File lookup,
YAML parsing and the malformed-YAML `ValueError` cases are outside the
model; `name` defaults handled by the caller. -/
def load_preset (name : Str) (raw : List (Str × CatSub)) : Preset :=
  ⟨name, normalizeMapping raw⟩

/-- Relation used to model `sorted(keys, key=len, reverse=True)`: a key
sorts before another when its length is at least the other's.  Python's
sort is stable and `List.insertionSort` with this relation is the matching
stable sort. -/
abbrev lenGE (a b : Str) : Prop := b.length ≤ a.length

instance : IsTotal Str lenGE := ⟨fun a b => (Nat.le_total b.length a.length)⟩

instance : IsTrans Str lenGE := ⟨fun _ _ _ hab hbc => Nat.le_trans hbc hab⟩

/-- `match_store_key`: strip the store name; on an empty result return
`None`; otherwise scan the mapping keys longest-first and return the first
non-empty key occurring as a substring of the stripped name. -/
def match_store_key (store_name : Str) (preset : Preset) : Option Str :=
  let s := strip store_name
  if s = [] then none
  else
    (List.insertionSort lenGE (preset.store_mapping.map Prod.fst)).find?
      (fun k => !k.isEmpty && occursIn k s)

/-- Loop body of `validate_unknown_stores` with its `seen` set made
explicit. -/
def validate_unknown_stores_aux (preset : Preset) : List Str → List Str → List Str
  | _, [] => []
  | seen, raw :: rest =>
    let nm := strip raw
    if nm.isEmpty || seen.contains nm then
      validate_unknown_stores_aux preset seen rest
    else if (match_store_key nm preset).isNone then
      nm :: validate_unknown_stores_aux preset (nm :: seen) rest
    else
      validate_unknown_stores_aux preset (nm :: seen) rest

/-- `validate_unknown_stores`: stripped, non-empty, first-occurrence-unique
store names with no matching preset key. -/
def validate_unknown_stores (store_names : List Str) (preset : Preset) : List Str :=
  validate_unknown_stores_aux preset [] store_names

/-- Error message of `upsert_store_mapping` for an empty key. -/
def EMPTY_KEY_MSG : Str := "store_key must not be empty".toList

/-- `upsert_store_mapping`, modelled on the parsed YAML content: strip the
key (raising `ValueError` when empty) and assign the stripped values into
the raw mapping, dict-style.  The YAML dump/re-parse round trip and the
missing-file `FileNotFoundError` are outside the model. -/
def upsert_store_mapping (raw : List (Str × CatSub)) (store_key category sub_category : Str) :
    Except Str (List (Str × CatSub)) :=
  let key := strip store_key
  if key = [] then .error EMPTY_KEY_MSG
  else .ok (dictSet raw key (strip category, strip sub_category))

/-! ## table_transformer.py -/

def KAKUTOKU : Str := "獲得".toList

/-- `should_skip_row`: skip rows whose 取引内容 contains 「獲得」. -/
def should_skip_row (transaction_content : Str) : Bool :=
  occursIn KAKUTOKU transaction_content

/-- `clear_unused_columns`: blank columns E,F,G,K,L,M (0-based indices
4,5,6,10,11,12) when present; `List.set` is a no-op out of range exactly as
the `if idx < len(row)` guard. -/
def clear_unused_columns (row : List Str) : List Str :=
  ((((((row.set 4 []).set 5 []).set 6 []).set 10 []).set 11 []).set 12 [])

def SHISHUTSU : Str := "支出".toList

def SHUNYU : Str := "収入".toList

/-- Inner `has_value` of `decide_income_or_expense`:
`bool(v) and float(v) != 0.0` with parse failures caught as `False`. -/
def has_value (v : Str) : Bool :=
  if v = [] then false
  else
    match pyFloat? v with
    | some x => decide (x ≠ 0)
    | none => false

/-- `decide_income_or_expense`: B(1) or D(3) holding a nonzero number means
支出, else C(2) holding one means 収入, else the empty string. -/
def decide_income_or_expense (row : List Str) : Str :=
  if (decide (1 < row.length) && has_value (row.getD 1 [])) ||
     (decide (3 < row.length) && has_value (row.getD 3 [])) then SHISHUTSU
  else if decide (2 < row.length) && has_value (row.getD 2 []) then SHUNYU
  else []

/-- `move_amount_to_f`: the stripped B column (index 1), or `""` when the
row is too short. -/
def move_amount_to_f (row : List Str) : Str :=
  if 1 < row.length then strip (row.getD 1 []) else []

/-! ## value_filler.py -/

def CARD_KEYWORDS : List Str := ["カード".toList, "クレジット".toList]

def CARD : Str := "カード".toList

def PAYPAY : Str := "PayPay".toList

/-- `decide_asset`: カード when the stripped 取引方法 contains a card
keyword, else PayPay. -/
def decide_asset (method_text : Str) : Str :=
  let t := strip method_text
  if CARD_KEYWORDS.any (fun k => occursIn k t) then CARD else PAYPAY

def EMPTY_AMOUNT_MSG : Str := "amount is empty".toList

def INVALID_AMOUNT_MSG : Str := "invalid amount literal".toList

/-- `parse_int_amount`: strip, remove commas, reject the empty string, then
`int(float(s))` when a dot is present else `int(s)`. -/
def parse_int_amount (value : Str) : Except Str Int :=
  let s := (strip value).filter (fun c => !(c = ','))
  if s = [] then .error EMPTY_AMOUNT_MSG
  else if s.any (fun c => decide (c = '.')) then
    match pyFloat? s with
    | some q => .ok (truncRat q)
    | none => .error INVALID_AMOUNT_MSG
  else
    match pyInt? s with
    | some n => .ok n
    | none => .error INVALID_AMOUNT_MSG

def AMOUNT_COLS_MSG : Str := "amount columns must have exactly 1 value".toList

/-- `decide_amount_and_io`: exactly one of the stripped B/C/D fields must be
non-empty; B or D means 支出, C means 収入, amount parsed from the filled
stripped field. -/
def decide_amount_and_io (withdraw_jpy deposit_jpy overseas_withdraw : Str) :
    Except Str (Int × Str) :=
  let b := strip withdraw_jpy
  let c := strip deposit_jpy
  let d := strip overseas_withdraw
  if ([b, c, d].filter (fun x => !x.isEmpty)).length ≠ 1 then .error AMOUNT_COLS_MSG
  else if !b.isEmpty then (parse_int_amount b).map (fun n => (n, SHISHUTSU))
  else if !d.isEmpty then (parse_int_amount d).map (fun n => (n, SHISHUTSU))
  else (parse_int_amount c).map (fun n => (n, SHUNYU))

def KEYERR_PRE : Str := "unknown store: ".toList

/-- `fill_category`: look up the matched representative key in the preset
mapping; `KeyError` (as `Except.error`) exactly when no key matches.  The
inner dict access cannot fail because the matched key comes from the
mapping itself; the unreachable branch is mapped to the same error. -/
def fill_category (store_name : Str) (preset : Preset) : Except Str CatSub :=
  match match_store_key store_name preset with
  | none => .error (KEYERR_PRE ++ store_name)
  | some key =>
    match dictGet? preset.store_mapping key with
    | some rec => .ok rec
    | none => .error (KEYERR_PRE ++ store_name)

/-! ## encoder_core.py -/

/-- A `csv.DictReader` row: header-to-value association list. -/
abbrev Row := List (Str × Str)

/-- Python `row.get(k) or ""`: a missing key and an empty value both read as
the empty string. -/
def rget (r : Row) (k : Str) : Str :=
  (r.lookup k).getD []

def K_DATE : Str := "取引日".toList

def K_B : Str := "出金金額（円）".toList

def K_C : Str := "入金金額（円）".toList

def K_D : Str := "海外出金金額".toList

def K_H : Str := "取引内容".toList

def K_I : Str := "取引先".toList

def K_J : Str := "取引方法".toList

def REQUIRED_HEADERS : List Str := [K_DATE, K_B, K_C, K_D, K_H, K_I, K_J]

def TSV_HEADERS : List Str :=
  ["日付".toList, "資産".toList, "分類".toList, "小分類".toList,
   "内容".toList, "金額".toList, "収入/支出".toList, "メモ".toList]

/-- `validate_headers`: the required headers missing from the CSV header
row, in `REQUIRED_HEADERS` order. -/
def validate_headers (headers : List Str) : List Str :=
  REQUIRED_HEADERS.filter (fun h => decide (¬ h ∈ headers))

/-- `extract_store_names`: stripped non-empty 取引先 values. -/
def extract_store_names (rows : List Row) : List Str :=
  (rows.map (fun r => strip (rget r K_I))).filter (fun n => !n.isEmpty)

/-- The 13-column working list built inside `transform_to_tsv_rows` and
passed through `clear_unused_columns`. -/
def transform_row_list (r : Row) : List Str :=
  clear_unused_columns
    [rget r K_DATE, rget r K_B, rget r K_C, rget r K_D, rget r K_H,
     [], [], [], rget r K_I, rget r K_J, [], [], []]

/-- Per-row body of the `transform_to_tsv_rows` loop, for a non-skipped row:
the A–H output columns, raising through `fill_category` on an unknown
store. -/
def encodeRow (preset : Preset) (r : Row) : Except Str (List Str) :=
  let row_list := transform_row_list r
  let ioLabel := decide_income_or_expense row_list
  let amount := move_amount_to_f row_list
  let asset := decide_asset (rget r K_J)
  match fill_category (rget r K_I) preset with
  | .error e => .error e
  | .ok cs =>
    .ok [strip (rget r K_DATE), asset, cs.1, [], cs.2, amount, ioLabel, strip (rget r K_I)]

/-- `transform_to_tsv_rows`: skip 「獲得」 rows, transform the rest in
order, propagating the first exception. -/
def transform_to_tsv_rows : List Row → Preset → Except Str (List (List Str))
  | [], _ => .ok []
  | r :: rest, preset =>
    if should_skip_row (rget r K_H) then transform_to_tsv_rows rest preset
    else
      match encodeRow preset r with
      | .error e => .error e
      | .ok row =>
        match transform_to_tsv_rows rest preset with
        | .error e => .error e
        | .ok out => .ok (row :: out)

/-- `Path(csv_path).with_suffix("")` on the path string: remove the final
component's suffix (the part from its last dot, when that dot is neither
leading nor trailing in the component). -/
def with_suffix_empty (p : Str) : Str :=
  let nm := (p.reverse.takeWhile (fun c => !(c = '/'))).reverse
  let k := (nm.reverse.takeWhile (fun c => !(c = '.'))).length
  if 1 ≤ k ∧ k + 2 ≤ nm.length then p.take (p.length - k - 1) else p

def ENCODED_SUFF : Str := "_encoded.tsv".toList

def HDR_MSG_PRE : Str := "必須ヘッダー不足: ".toList

def COMMA_SPACE : Str := ", ".toList

def UNKNOWN_MSG : Str := "未登録店舗があります。登録してから再実行してください。".toList

def DASH : Str := "- ".toList

def OK_PRE : Str := "OK: ".toList

/-- Result of `run_encode`: the returned `(success, messages)` pair plus the
TSV file written by `write_tsv` (path and content, the header row first),
`none` when nothing is written. -/
structure EncodeResult where
  success : Bool
  messages : List Str
  written : Option (Str × List (List Str))

/-- `run_encode` on parsed CSV content (rows and header row) and a loaded
preset: header validation, unknown-store validation, transformation, TSV
write.  CSV/YAML file reading is outside the model. -/
def run_encode (csv_path : Str) (rows : List Row) (headers : List Str) (preset : Preset) :
    Except Str EncodeResult :=
  let missing := validate_headers headers
  if missing = [] then
    let unknown := validate_unknown_stores (extract_store_names rows) preset
    if unknown = [] then
      match transform_to_tsv_rows rows preset with
      | .error e => .error e
      | .ok tsv_rows =>
        let tsv_path := with_suffix_empty csv_path ++ ENCODED_SUFF
        .ok ⟨true, [OK_PRE ++ tsv_path], some (tsv_path, TSV_HEADERS :: tsv_rows)⟩
    else .ok ⟨false, UNKNOWN_MSG :: unknown.map (fun u => DASH ++ u), none⟩
  else .ok ⟨false, [HDR_MSG_PRE ++ joinSep COMMA_SPACE missing], none⟩

/-! ## aspect_resize_gui.py -/

/-- Crop box returned by `img.crop((left, top, right, bottom))`. -/
structure CropBox where
  left : Int
  top : Int
  right : Int
  bottom : Int

/-- `resize_and_crop` of `AspectResizer`: pick the centrally positioned crop
of the target aspect ratio.  Python float arithmetic is modelled exactly
over ℚ, `int()` as truncation toward zero and `//` as `Int.fdiv`. -/
def resize_and_crop (w h : ℕ) (target_ratio : ℚ) : CropBox :=
  let nwh : Int × Int :=
    if target_ratio < (w : ℚ) / (h : ℚ) then (truncRat ((h : ℚ) * target_ratio), (h : Int))
    else ((w : Int), truncRat ((w : ℚ) / target_ratio))
  let lft := ((w : Int) - nwh.1).fdiv 2
  let tp := ((h : Int) - nwh.2).fdiv 2
  ⟨lft, tp, lft + nwh.1, tp + nwh.2⟩

/-- First-occurrence deduplication loop (the `seen` set of
`validate_unknown_stores`), factored for specification. -/
def dedupFirstAux : List Str → List Str → List Str
  | _, [] => []
  | seen, x :: xs =>
    if seen.contains x then dedupFirstAux seen xs
    else x :: dedupFirstAux (x :: seen) xs

/-- Keep the first occurrence of each element. -/
def dedupFirst (l : List Str) : List Str :=
  dedupFirstAux [] l

/-- Whether an `Except` is a normal return. -/
def isOkE : Except Str α → Bool
  | .ok _ => true
  | .error _ => false

/-- Exception-propagating map over a list, used to specify the
`transform_to_tsv_rows` loop. -/
def mapME (f : Row → Except Str (List Str)) : List Row → Except Str (List (List Str))
  | [] => .ok []
  | a :: t =>
    match f a with
    | .error e => .error e
    | .ok b =>
      match mapME f t with
      | .error e => .error e
      | .ok bs => .ok (b :: bs)

/-! ## Concrete data used by witnesses and counterexamples -/

/-- A small preset with two overlapping keys of different lengths. -/
def presetW : Preset :=
  ⟨"paypay".toList,
   [("セ".toList, ("交通".toList, "電車".toList)),
    ("セブン".toList, ("食費".toList, "コンビニ".toList))]⟩

/-- A preset with an empty store mapping. -/
def presetE : Preset := ⟨"empty".toList, []⟩

/-- A CSV row whose store is not registered in any preset. -/
def rowX : Row := [(K_I, "X".toList)]

/-- A CSV row with only the deposit column filled. -/
def rowC : Row := [(K_C, "100".toList)]

/-- A CSV row with only the withdrawal column filled. -/
def rowB : Row := [(K_B, " 250 ".toList)]

/-- Raw YAML store mapping with two keys that collide after stripping. -/
def rawEdge : List (Str × CatSub) :=
  [("A".toList, ("x".toList, "y".toList)), (" A".toList, ("z".toList, "w".toList))]

/-- The raw mapping `rawEdge` after `upsert_store_mapping` on key `A`. -/
def rawEdge' : List (Str × CatSub) :=
  [("A".toList, ("c".toList, "s".toList)), (" A".toList, ("z".toList, "w".toList))]

/-- Raw YAML store mapping with already-stripped, distinct keys. -/
def rawPlain : List (Str × CatSub) := [("A".toList, ("x".toList, "y".toList))]

/-- The result of a successful `run_encode` on an empty row list. -/
def resW : EncodeResult :=
  ⟨true, [OK_PRE ++ "a_encoded.tsv".toList],
   some ("a_encoded.tsv".toList, [TSV_HEADERS])⟩

/-! ## String lemmas -/

lemma leadsWith_iff (pat s : Str) : leadsWith pat s = true ↔ ∃ r, s = pat ++ r := by
  induction pat generalizing s with
  | nil => simp [leadsWith]
  | cons p ps ih =>
    cases s with
    | nil => simp [leadsWith]
    | cons c cs =>
      simp only [leadsWith, Bool.and_eq_true, decide_eq_true_eq, ih, List.cons_append,
        List.cons.injEq]
      constructor
      · rintro ⟨rfl, r, rfl⟩
        exact ⟨r, rfl, rfl⟩
      · rintro ⟨r, rfl, rfl⟩
        exact ⟨rfl, r, rfl⟩

lemma occursIn_iff (pat s : Str) : occursIn pat s = true ↔ ∃ l r, s = l ++ pat ++ r := by
  induction s with
  | nil =>
    simp only [occursIn, List.isEmpty_eq_true]
    constructor
    · rintro rfl; exact ⟨[], [], rfl⟩
    · rintro ⟨l, r, hr⟩
      rcases List.append_eq_nil.mp (List.append_eq_nil.mp hr.symm).1 with ⟨-, h2⟩
      exact h2
  | cons c cs ih =>
    simp only [occursIn, Bool.or_eq_true, leadsWith_iff, ih]
    constructor
    · rintro (⟨r, hr⟩ | ⟨l, r, hr⟩)
      · exact ⟨[], r, by simp [hr]⟩
      · exact ⟨c :: l, r, by simp [hr]⟩
    · rintro ⟨l, r, hr⟩
      cases l with
      | nil => exact Or.inl ⟨r, by simpa using hr⟩
      | cons a l' =>
        right
        rw [List.cons_append, List.cons_append] at hr
        exact ⟨l', r, (List.cons.injEq _ _ _ _ ▸ hr).2⟩

lemma dropWhile_idem (p : Char → Bool) (l : Str) :
    (l.dropWhile p).dropWhile p = l.dropWhile p := by
  induction l with
  | nil => rfl
  | cons a t ih =>
    by_cases h : p a = true
    · simpa [List.dropWhile_cons, h] using ih
    · simp [List.dropWhile_cons, h]

lemma dropWhile_eq_self_of_pfx {p : Char → Bool} {l l' : Str}
    (hl : l.dropWhile p = l) (hp : l' <+: l) : l'.dropWhile p = l' := by
  cases l' with
  | nil => rfl
  | cons a t =>
    cases l with
    | nil => exact absurd (List.eq_nil_of_prefix_nil hp) (by simp)
    | cons b m =>
      obtain ⟨hab, -⟩ := List.cons_prefix_cons.mp hp
      subst hab
      have hpa : p a = false := by
        by_contra hcon
        have hpa : p a = true := by revert hcon; cases p a <;> simp
        rw [List.dropWhile_cons, hpa] at hl
        have := congrArg List.length hl
        have hle : (List.dropWhile p m).length ≤ m.length :=
          (List.dropWhile_suffix p).sublist.length_le
        simp at this
        omega
      simp [List.dropWhile_cons, hpa]

lemma strip_idem (s : Str) : strip (strip s) = strip s := by
  unfold strip
  set A := s.dropWhile isSpaceChar with hA
  have hAA : A.dropWhile isSpaceChar = A := dropWhile_idem _ _
  set B := A.reverse.dropWhile isSpaceChar with hB
  have hBB : B.dropWhile isSpaceChar = B := dropWhile_idem _ _
  have hBpfx : B.reverse <+: A := by
    have hsfx : B <:+ A.reverse := List.dropWhile_suffix _
    have := List.reverse_prefix.mpr hsfx
    simpa using this
  have h1 : B.reverse.dropWhile isSpaceChar = B.reverse :=
    dropWhile_eq_self_of_pfx hAA hBpfx
  rw [h1, List.reverse_reverse, hBB]

lemma strip_nil : strip [] = [] := rfl

lemma ne_nil_of_strip_ne_nil {s : Str} (h : strip s ≠ []) : s ≠ [] := by
  intro hs; rw [hs, strip_nil] at h; exact h rfl

lemma takeWhile_all {p : Char → Bool} {l : Str} (h : l.all p = true) :
    l.takeWhile p = l :=
  List.takeWhile_eq_self_iff.mpr (List.all_eq_true.mp h)

lemma isDigit_ne_minus {c : Char} (h : c.isDigit = true) : (c = '-') = False := by
  simp only [eq_iff_iff, iff_false]
  rintro rfl; exact absurd h (by decide)

lemma isDigit_ne_plus {c : Char} (h : c.isDigit = true) : (c = '+') = False := by
  simp only [eq_iff_iff, iff_false]
  rintro rfl; exact absurd h (by decide)

lemma isDigit_ne_dot {c : Char} (h : c.isDigit = true) : (c = '.') = False := by
  simp only [eq_iff_iff, iff_false]
  rintro rfl; exact absurd h (by decide)

lemma isDigit_ne_comma {c : Char} (h : c.isDigit = true) : (c = ',') = False := by
  simp only [eq_iff_iff, iff_false]
  rintro rfl; exact absurd h (by decide)

lemma pyFloat_digits {v : Str} (hne : strip v ≠ []) (hd : (strip v).all Char.isDigit = true) :
    pyFloat? v = some ((digitsVal (strip v) : ℚ)) := by
  unfold pyFloat?
  obtain ⟨c, cs, hs⟩ := List.exists_cons_of_ne_nil hne
  have hc : c.isDigit = true := by
    have := List.all_eq_true.mp (hs ▸ hd)
    exact this c (by simp)
  rw [hs]
  simp only [List.headD_cons, isDigit_ne_minus hc, isDigit_ne_plus hc, if_false,
    Bool.or_self, decide_False, Bool.false_or]
  rw [takeWhile_all (hs ▸ hd)]
  simp [List.drop_length, hs ▸ hne]

lemma pyInt_digits {v : Str} (hne : strip v ≠ []) (hd : (strip v).all Char.isDigit = true) :
    pyInt? v = some ((digitsVal (strip v) : Int)) := by
  unfold pyInt?
  obtain ⟨c, cs, hs⟩ := List.exists_cons_of_ne_nil hne
  have hc : c.isDigit = true := List.all_eq_true.mp (hs ▸ hd) c (by simp [hs])
  rw [hs]
  simp only [List.headD_cons, isDigit_ne_minus hc, isDigit_ne_plus hc, if_false,
    decide_False, Bool.or_self, Bool.false_or]
  rw [if_pos ⟨by simp, hs ▸ hd⟩]
  simp

lemma parse_int_amount_digits {v : Str} (hne : strip v ≠ [])
    (hd : (strip v).all Char.isDigit = true) :
    parse_int_amount v = .ok ((digitsVal (strip v) : Int)) := by
  have hfil : (strip v).filter (fun c => !(c = ',')) = strip v :=
    List.filter_eq_self.mpr (fun c hc => by
      simp [isDigit_ne_comma (List.all_eq_true.mp hd c hc)])
  have hdot : (strip v).any (fun c => decide (c = '.')) = false := by
    rw [Bool.eq_false_iff]
    intro hcon
    obtain ⟨x, hx, hx2⟩ := List.any_eq_true.mp hcon
    exact (isDigit_ne_dot (List.all_eq_true.mp hd x hx)) ▸ of_decide_eq_true hx2
  have hint : pyInt? (strip v) = some ((digitsVal (strip v) : Int)) := by
    have h1 := pyInt_digits (v := strip v)
      (by rw [strip_idem]; exact hne) (by rw [strip_idem]; exact hd)
    rwa [strip_idem] at h1
  simp only [parse_int_amount, hfil]
  rw [if_neg hne]
  simp [hdot, hint]

lemma has_value_digits {v : Str} (hne : strip v ≠ [])
    (hd : (strip v).all Char.isDigit = true) (hnz : digitsVal (strip v) ≠ 0) :
    has_value v = true := by
  unfold has_value
  rw [if_neg (ne_nil_of_strip_ne_nil hne), pyFloat_digits hne hd]
  simp only [decide_eq_true_eq]
  exact Nat.cast_ne_zero.mpr hnz

/-! ## match_store_key lemmas -/

lemma find?_sorted_len_max {q : Str → Bool} {l : List Str} (hs : List.Sorted lenGE l)
    {k : Str} (hf : l.find? q = some k) :
    ∀ k' ∈ l, q k' = true → k'.length ≤ k.length := by
  induction l with
  | nil => simp [List.find?] at hf
  | cons a t ih =>
    intro k' hk' hq
    rw [List.find?_cons] at hf
    cases hqa : q a with
    | true =>
      rw [hqa] at hf
      have hk : a = k := Option.some.inj hf
      subst hk
      rcases List.mem_cons.mp hk' with rfl | hmem
      · exact Nat.le_refl _
      · exact (List.sorted_cons.mp hs).1 k' hmem
    | false =>
      rw [hqa] at hf
      rcases List.mem_cons.mp hk' with rfl | hmem
      · rw [hq] at hqa; cases hqa
      · exact ih (hs.of_cons) hf k' hmem hq

lemma match_store_key_some_mem {store_name k : Str} {preset : Preset}
    (h : match_store_key store_name preset = some k) :
    k ∈ preset.store_mapping.map Prod.fst := by
  unfold match_store_key at h
  by_cases hs : strip store_name = []
  · rw [if_pos hs] at h; cases h
  · rw [if_neg hs] at h
    exact (List.perm_insertionSort lenGE _).mem_iff.mp (List.mem_of_find?_eq_some h)

lemma mem_keys_dictGet {m : List (Str × CatSub)} {k : Str}
    (h : k ∈ m.map Prod.fst) : ∃ v, dictGet? m k = some v := by
  induction m with
  | nil => simp at h
  | cons p rest ih =>
    by_cases hp : p.1 = k
    · exact ⟨p.2, by simp [dictGet?, hp]⟩
    · have : k ∈ rest.map Prod.fst := by
        rcases List.mem_map.mp h with ⟨a, ha, hak⟩
        rcases List.mem_cons.mp ha with rfl | hmem
        · exact absurd hak hp
        · exact List.mem_map.mpr ⟨a, hmem, hak⟩
      obtain ⟨v, hv⟩ := ih this
      exact ⟨v, by simp [dictGet?, hp, hv]⟩

/-- Claim C1: for every store name and preset, when some non-empty mapping
key occurs as a substring of the stripped store name, `match_store_key`
returns such a matching key of maximal length; when the stripped store name
is empty or no key matches it returns `None`. -/
theorem match_store_key_longest (store_name : Str) (preset : Preset) :
    (∀ k, match_store_key store_name preset = some k →
      k ∈ preset.store_mapping.map Prod.fst ∧ k ≠ [] ∧
      occursIn k (strip store_name) = true ∧
      ∀ k' ∈ preset.store_mapping.map Prod.fst, k' ≠ [] →
        occursIn k' (strip store_name) = true → k'.length ≤ k.length) ∧
    (match_store_key store_name preset = none ↔
      (strip store_name = [] ∨
        ∀ k' ∈ preset.store_mapping.map Prod.fst, k' = [] ∨
          occursIn k' (strip store_name) = false)) := by
  have hperm := List.perm_insertionSort lenGE (preset.store_mapping.map Prod.fst)
  have hsort := List.sorted_insertionSort lenGE (preset.store_mapping.map Prod.fst)
  by_cases hs : strip store_name = []
  · constructor
    · intro k hk
      unfold match_store_key at hk
      rw [if_pos hs] at hk
      cases hk
    · simp [match_store_key, hs]
  · have hpred : ∀ x : Str, (!x.isEmpty && occursIn x (strip store_name)) = true ↔
        x ≠ [] ∧ occursIn x (strip store_name) = true := by
      intro x
      simp [List.isEmpty_iff]
    constructor
    · intro k hk
      have hk' := hk
      unfold match_store_key at hk'
      rw [if_neg hs] at hk'
      have hqk := List.find?_some hk'
      obtain ⟨hkne, hkocc⟩ := (hpred k).mp hqk
      refine ⟨match_store_key_some_mem hk, hkne, hkocc, ?_⟩
      intro k' hk'mem hk'ne hk'occ
      exact find?_sorted_len_max hsort hk' k' (hperm.mem_iff.mpr hk'mem)
        ((hpred k').mpr ⟨hk'ne, hk'occ⟩)
    · unfold match_store_key
      rw [if_neg hs]
      rw [List.find?_eq_none]
      constructor
      · intro hall
        refine Or.inr (fun k' hmem => ?_)
        have := hall k' (hperm.mem_iff.mpr hmem)
        by_cases hk'e : k' = []
        · exact Or.inl hk'e
        · refine Or.inr ?_
          by_contra hocc
          exact this ((hpred k').mpr ⟨hk'e, eq_true_of_ne_false hocc⟩)
      · rintro (h | hall)
        · exact absurd h hs
        · intro x hx hq
          obtain ⟨hxne, hxocc⟩ := (hpred x).mp hq
          rcases hall x (hperm.mem_iff.mp hx) with h1 | h2
          · exact hxne h1
          · rw [hxocc] at h2; cases h2

/-- Witness for C1 at a concrete store name and preset: the longer key
「セブン」 is the match. -/
theorem match_store_key_longest_witness :
    occursIn ("セブン".toList) (strip ("  セブンイレブン 新宿西口店 ".toList)) = true :=
  ((match_store_key_longest ("  セブンイレブン 新宿西口店 ".toList) presetW).1
    ("セブン".toList) (by decide)).2.2.1

/-- Claim C6: `fill_category` returns exactly the pair stored in the
preset's `store_mapping` under the key returned by `match_store_key`
(whose lookup always succeeds), and it raises `KeyError` if and only if
`match_store_key` returns `None`. -/
theorem fill_category_spec (store_name : Str) (preset : Preset) :
    (∀ k v, match_store_key store_name preset = some k →
      dictGet? preset.store_mapping k = some v →
      fill_category store_name preset = .ok v) ∧
    (∀ k, match_store_key store_name preset = some k →
      (dictGet? preset.store_mapping k).isSome = true) ∧
    (isOkE (fill_category store_name preset) = false ↔
      match_store_key store_name preset = none) := by
  cases hm : match_store_key store_name preset with
  | none =>
    refine ⟨?_, ?_, ?_⟩
    · intro k v hk; cases hk
    · intro k hk; cases hk
    · simp [fill_category, hm, isOkE]
  | some key =>
    obtain ⟨v, hv⟩ := mem_keys_dictGet (match_store_key_some_mem hm)
    refine ⟨?_, ?_, ?_⟩
    · intro k v' hk hv'
      have hkk : key = k := Option.some.inj hk
      subst hkk
      simp [fill_category, hm, hv']
    · intro k hk
      have hkk : key = k := Option.some.inj hk
      subst hkk
      simp [hv]
    · simp [fill_category, hm, hv, isOkE]

/-- Witness for C6: looking up 「セブン 1」 against the concrete preset
returns its category pair. -/
theorem fill_category_spec_witness :
    fill_category ("セブン 1".toList) presetW = .ok (("食費".toList, "コンビニ".toList)) :=
  (fill_category_spec ("セブン 1".toList) presetW).1 ("セブン".toList)
    (("食費".toList, "コンビニ".toList)) (by decide) (by decide)

/-- Claim C9: `run_encode` is deterministic — identical parsed CSV content,
headers and preset content give identical results (and identical written
TSV content, which is part of the result record); the model is a pure
function of these inputs, reflecting that the Python code reads no other
state. -/
theorem run_encode_deterministic (csv_path : Str) (rows : List Row) (headers : List Str)
    (preset : Preset) (r1 r2 : Except Str EncodeResult)
    (h1 : run_encode csv_path rows headers preset = r1)
    (h2 : run_encode csv_path rows headers preset = r2) : r1 = r2 :=
  h1.symm.trans h2

/-- Witness for C9 at concrete inputs. -/
theorem run_encode_deterministic_witness :
    run_encode [] [] [] presetE = run_encode [] [] [] presetE :=
  run_encode_deterministic [] [] [] presetE _ _ rfl rfl

/-- Claim C10: for positive width, height and target ratio, the crop box is
centrally positioned, its width and height never exceed the image's: when
`w/h > r` it keeps the full height and has width `int(h*r)`, otherwise it
keeps the full width and has height `int(w/r)`. -/
theorem resize_and_crop_spec (w h : ℕ) (r : ℚ) (hw : 0 < w) (hh : 0 < h) (hr : 0 < r) :
    ((r < (w : ℚ) / (h : ℚ)) →
      (resize_and_crop w h r).right - (resize_and_crop w h r).left = truncRat ((h : ℚ) * r) ∧
      (resize_and_crop w h r).bottom - (resize_and_crop w h r).top = (h : Int)) ∧
    (¬ (r < (w : ℚ) / (h : ℚ)) →
      (resize_and_crop w h r).right - (resize_and_crop w h r).left = (w : Int) ∧
      (resize_and_crop w h r).bottom - (resize_and_crop w h r).top = truncRat ((w : ℚ) / r)) ∧
    (resize_and_crop w h r).right - (resize_and_crop w h r).left ≤ (w : Int) ∧
    (resize_and_crop w h r).bottom - (resize_and_crop w h r).top ≤ (h : Int) ∧
    (resize_and_crop w h r).left =
      ((w : Int) - ((resize_and_crop w h r).right - (resize_and_crop w h r).left)).fdiv 2 ∧
    (resize_and_crop w h r).top =
      ((h : Int) - ((resize_and_crop w h r).bottom - (resize_and_crop w h r).top)).fdiv 2 := by
  have hh' : (0 : ℚ) < (h : ℚ) := by exact_mod_cast hh
  by_cases hcond : r < (w : ℚ) / (h : ℚ)
  · have hlt : (h : ℚ) * r < (w : ℚ) := by
      have h1 := (lt_div_iff₀ hh').mp hcond
      linarith
    have hnn : (0 : ℚ) ≤ (h : ℚ) * r := by positivity
    have htr : truncRat ((h : ℚ) * r) = ⌊(h : ℚ) * r⌋ := if_pos hnn
    have hfle : truncRat ((h : ℚ) * r) ≤ (w : Int) := by
      rw [htr]
      have h1 : ⌊(h : ℚ) * r⌋ ≤ ⌊(w : ℚ)⌋ := Int.floor_le_floor (le_of_lt hlt)
      simpa using h1
    have hbox : resize_and_crop w h r =
        ⟨((w : Int) - truncRat ((h : ℚ) * r)).fdiv 2, ((h : Int) - (h : Int)).fdiv 2,
         ((w : Int) - truncRat ((h : ℚ) * r)).fdiv 2 + truncRat ((h : ℚ) * r),
         ((h : Int) - (h : Int)).fdiv 2 + (h : Int)⟩ := by
      simp only [resize_and_crop, if_pos hcond]
    rw [hbox]
    refine ⟨fun _ => ⟨by ring, by ring⟩, fun hc => absurd hcond hc, ?_, ?_, ?_, ?_⟩
    · simpa [add_sub_cancel_left] using hfle
    · simp [add_sub_cancel_left]
    · simp [add_sub_cancel_left]
    · simp [add_sub_cancel_left]
  · have hge : (w : ℚ) / (h : ℚ) ≤ r := le_of_not_lt hcond
    have hle2 : (w : ℚ) / r ≤ (h : ℚ) := by
      rw [div_le_iff₀ hr]
      have h1 := (div_le_iff₀ hh').mp hge
      linarith
    have hnn : (0 : ℚ) ≤ (w : ℚ) / r := by positivity
    have htr : truncRat ((w : ℚ) / r) = ⌊(w : ℚ) / r⌋ := if_pos hnn
    have hfle : truncRat ((w : ℚ) / r) ≤ (h : Int) := by
      rw [htr]
      have h1 : ⌊(w : ℚ) / r⌋ ≤ ⌊(h : ℚ)⌋ := Int.floor_le_floor hle2
      simpa using h1
    have hbox : resize_and_crop w h r =
        ⟨((w : Int) - (w : Int)).fdiv 2, ((h : Int) - truncRat ((w : ℚ) / r)).fdiv 2,
         ((w : Int) - (w : Int)).fdiv 2 + (w : Int),
         ((h : Int) - truncRat ((w : ℚ) / r)).fdiv 2 + truncRat ((w : ℚ) / r)⟩ := by
      simp only [resize_and_crop, if_neg hcond]
    rw [hbox]
    refine ⟨fun hc => absurd hc hcond, fun _ => ⟨by ring, by ring⟩, ?_, ?_, ?_, ?_⟩
    · simp [add_sub_cancel_left]
    · simpa [add_sub_cancel_left] using hfle
    · simp [add_sub_cancel_left]
    · simp [add_sub_cancel_left]

/-- Witness for C10 at a 16x9 image and ratio 1. -/
theorem resize_and_crop_spec_witness :
    (resize_and_crop 16 9 1).right - (resize_and_crop 16 9 1).left ≤ (16 : Int) :=
  (resize_and_crop_spec 16 9 1 (by norm_num) (by norm_num) (by norm_num)).2.2.1

/-- Counterexample to C4: when the single non-empty amount field is the
deposit column 入金金額（円）, `decide_amount_and_io` yields the parsed
amount 100, but `move_amount_to_f` (used by `transform_to_tsv_rows`)
returns the stripped withdrawal column, i.e. the empty string, so the
amounts differ (the labels happen to agree). -/
theorem decide_amount_refines_counterexample :
    ( decide_amount_and_io (rget rowC K_B) (rget rowC K_C) (rget rowC K_D)) =
      .ok ((100 : Int), SHUNYU) ∧
    move_amount_to_f (transform_row_list rowC) = [] ∧
    parse_int_amount (move_amount_to_f (transform_row_list rowC)) = .error EMPTY_AMOUNT_MSG ∧
    decide_income_or_expense (transform_row_list rowC) = SHUNYU := by
  have hv : has_value ['1', '0', '0'] = true :=
    has_value_digits (by decide) (by decide) (by decide)
  have hv0 : has_value [] = false := rfl
  have hrow : transform_row_list rowC =
      [[], [], ['1', '0', '0'], [], [], [], [], [], [], [], [], [], []] := rfl
  refine ⟨rfl, rfl, rfl, ?_⟩
  rw [hrow]
  simp [decide_income_or_expense, hv, hv0]

/-- Claim C4 (amended): when the single non-empty amount field is the
withdrawal column 出金金額（円） and its stripped value is a digit string
with nonzero value, the pair used by `transform_to_tsv_rows` agrees with
`decide_amount_and_io`: both label the row 支出 and the amount string
returned by `move_amount_to_f` parses to exactly the amount
`decide_amount_and_io` returns. -/
theorem decide_amount_refines_withdrawal (r : Row)
    (hd : (strip (rget r K_B)).all Char.isDigit = true)
    (hne : strip (rget r K_B) ≠ [])
    (hnz : digitsVal (strip (rget r K_B)) ≠ 0)
    (hc : strip (rget r K_C) = []) (hdp : strip (rget r K_D) = []) :
    ( decide_amount_and_io (rget r K_B) (rget r K_C) (rget r K_D)) =
      .ok ((digitsVal (strip (rget r K_B)) : Int), SHISHUTSU) ∧
    decide_income_or_expense (transform_row_list r) = SHISHUTSU ∧
    parse_int_amount (move_amount_to_f (transform_row_list r)) =
      .ok ((digitsVal (strip (rget r K_B)) : Int)) := by
  have hrow : transform_row_list r =
      [rget r K_DATE, rget r K_B, rget r K_C, rget r K_D, [], [], [], [],
       rget r K_I, rget r K_J, [], [], []] := rfl
  have hpi : parse_int_amount (strip (rget r K_B)) =
      .ok ((digitsVal (strip (rget r K_B)) : Int)) := by
    have h1 := parse_int_amount_digits (v := strip (rget r K_B))
      (by rw [strip_idem]; exact hne) (by rw [strip_idem]; exact hd)
    rwa [strip_idem] at h1
  refine ⟨?_, ?_, ?_⟩
  · simp only [decide_amount_and_io, hc, hdp]
    rw [if_neg (by simp [List.filter_cons, List.isEmpty_iff, hne])]
    rw [if_pos (by simp [List.isEmpty_iff, hne])]
    rw [hpi]
    rfl
  · have hv := has_value_digits hne hd hnz
    simp [decide_income_or_expense, hrow, hv]
  · have hmv : move_amount_to_f (transform_row_list r) = strip (rget r K_B) := by
      simp [move_amount_to_f, hrow]
    rw [hmv, hpi]

/-- Witness for the amended C4 at a concrete withdrawal-only row. -/
theorem decide_amount_refines_withdrawal_witness :
    ( decide_amount_and_io (rget rowB K_B) (rget rowB K_C) (rget rowB K_D)) =
      .ok ((digitsVal (strip (rget rowB K_B)) : Int), SHISHUTSU) :=
  (decide_amount_refines_withdrawal rowB (by decide) (by decide) (by decide)
    (by decide) (by decide)).1

/-! ## Header validation (C3) -/

lemma mem_joinSep {h : Str} {L : List Str} (sep : Str) (hm : h ∈ L) :
    ∃ x y, joinSep sep L = x ++ h ++ y := by
  induction L with
  | nil => simp at hm
  | cons a t ih =>
    rcases List.mem_cons.mp hm with rfl | hmem
    · cases t with
      | nil => exact ⟨[], [], by simp [joinSep]⟩
      | cons b t' => exact ⟨[], sep ++ joinSep sep (b :: t'), by simp [joinSep]⟩
    · cases t with
      | nil => simp at hmem
      | cons b t' =>
        obtain ⟨x, y, hxy⟩ := ih hmem
        refine ⟨a ++ sep ++ x, y, ?_⟩
        have hj : joinSep sep (a :: b :: t') = a ++ sep ++ joinSep sep (b :: t') := rfl
        rw [hj, hxy]
        simp [List.append_assoc]

/-- Claim C3: `run_encode` fails without writing whenever a required header
is missing, the failure message names every missing header, and the header
check passes exactly when all seven required headers are present. -/
theorem run_encode_missing_headers (csv_path : Str) (rows : List Row) (headers : List Str)
    (preset : Preset) :
    (validate_headers headers = [] ↔ ∀ h ∈ REQUIRED_HEADERS, h ∈ headers) ∧
    (∀ h, h ∈ validate_headers headers ↔ h ∈ REQUIRED_HEADERS ∧ ¬ h ∈ headers) ∧
    (validate_headers headers ≠ [] →
      run_encode csv_path rows headers preset =
        .ok ⟨false, [HDR_MSG_PRE ++ joinSep COMMA_SPACE (validate_headers headers)], none⟩ ∧
      ∀ h ∈ validate_headers headers,
        occursIn h (HDR_MSG_PRE ++ joinSep COMMA_SPACE (validate_headers headers)) = true) := by
  refine ⟨?_, ?_, ?_⟩
  · rw [validate_headers, List.filter_eq_nil_iff]
    simp
  · intro h
    rw [validate_headers, List.mem_filter]
    simp
  · intro hne
    constructor
    · simp only [run_encode]
      rw [if_neg hne]
    · intro h hm
      obtain ⟨x, y, hxy⟩ := mem_joinSep COMMA_SPACE hm
      rw [hxy, occursIn_iff]
      exact ⟨HDR_MSG_PRE ++ x, y, by simp [List.append_assoc]⟩

/-- Witness for C3: a header row containing only 取引日 fails with the
joined missing-header message and no written file. -/
theorem run_encode_missing_headers_witness :
    run_encode [] [] [K_DATE] presetE =
      .ok ⟨false, [HDR_MSG_PRE ++ joinSep COMMA_SPACE (validate_headers [K_DATE])], none⟩ :=
  ((run_encode_missing_headers [] [] [K_DATE] presetE).2.2 (by decide)).1

/-! ## transform_to_tsv_rows lemmas (C8, C5) -/

lemma mapME_ok_length {f : Row → Except Str (List Str)} :
    ∀ {l : List Row} {out : List (List Str)}, mapME f l = .ok out → out.length = l.length := by
  intro l
  induction l with
  | nil =>
    intro out h
    cases h
    rfl
  | cons a t ih =>
    intro out h
    unfold mapME at h
    cases hfa : f a with
    | error e => rw [hfa] at h; cases h
    | ok b =>
      rw [hfa] at h
      cases hmt : mapME f t with
      | error e => rw [hmt] at h; cases h
      | ok bs =>
        rw [hmt] at h
        cases h
        simp [ih hmt]

lemma mapME_ok_mem {f : Row → Except Str (List Str)} :
    ∀ {l : List Row} {out : List (List Str)}, mapME f l = .ok out →
      ∀ y ∈ out, ∃ x ∈ l, f x = .ok y := by
  intro l
  induction l with
  | nil =>
    intro out h y hy
    cases h
    simp at hy
  | cons a t ih =>
    intro out h y hy
    unfold mapME at h
    cases hfa : f a with
    | error e => rw [hfa] at h; cases h
    | ok b =>
      rw [hfa] at h
      cases hmt : mapME f t with
      | error e => rw [hmt] at h; cases h
      | ok bs =>
        rw [hmt] at h
        cases h
        rcases List.mem_cons.mp hy with rfl | hmem
        · exact ⟨a, by simp, hfa⟩
        · obtain ⟨x, hx, hfx⟩ := ih hmt y hmem
          exact ⟨x, by simp [hx], hfx⟩

lemma mapME_error {f : Row → Except Str (List Str)} :
    ∀ {l : List Row} {e : Str}, mapME f l = .error e → ∃ x ∈ l, f x = .error e := by
  intro l
  induction l with
  | nil => intro e h; cases h
  | cons a t ih =>
    intro e h
    unfold mapME at h
    cases hfa : f a with
    | error e' =>
      rw [hfa] at h
      cases h
      exact ⟨a, by simp, hfa⟩
    | ok b =>
      rw [hfa] at h
      cases hmt : mapME f t with
      | error e' =>
        rw [hmt] at h
        cases h
        obtain ⟨x, hx, hfx⟩ := ih hmt
        exact ⟨x, by simp [hx], hfx⟩
      | ok bs => rw [hmt] at h; cases h

lemma transform_eq_mapME (rows : List Row) (preset : Preset) :
    transform_to_tsv_rows rows preset =
      mapME (encodeRow preset) (rows.filter (fun r => !should_skip_row (rget r K_H))) := by
  induction rows with
  | nil => rfl
  | cons r rest ih =>
    by_cases hskip : should_skip_row (rget r K_H) = true
    · simp only [transform_to_tsv_rows, List.filter_cons, hskip, if_pos, Bool.not_true,
        Bool.false_eq_true, if_false, ih]
    · have hskip' : should_skip_row (rget r K_H) = false := by
        revert hskip; cases should_skip_row (rget r K_H) <;> simp
      simp only [transform_to_tsv_rows, List.filter_cons, hskip', Bool.not_false, if_true,
        mapME, ih]
      rw [if_neg Bool.false_ne_true]

lemma encodeRow_error_iff {preset : Preset} {r : Row} {e : Str} :
    encodeRow preset r = .error e ↔ fill_category (rget r K_I) preset = .error e := by
  cases hf : fill_category (rget r K_I) preset <;> simp [encodeRow, hf]

lemma encodeRow_ok_shape {preset : Preset} {r : Row} {y : List Str}
    (h : encodeRow preset r = .ok y) :
    y.length = 8 ∧ y.getD 3 [] = [] ∧ y.getD 7 [] = strip (rget r K_I) := by
  cases hf : fill_category (rget r K_I) preset with
  | error e => simp [encodeRow, hf] at h
  | ok cs =>
    simp only [encodeRow, hf] at h
    cases h
    exact ⟨rfl, rfl, rfl⟩

/-- Claim C8 (amended): the loop of `transform_to_tsv_rows` is exactly an
exception-propagating map of the per-row transformation over the rows not
skipped by the 「獲得」 rule; on a normal return there is exactly one output
row per non-skipped input row, and the only other way a row can fail to
yield output is the whole call raising `KeyError` from an unknown,
non-skipped store. -/
theorem transform_skip_rule (rows : List Row) (preset : Preset) :
    transform_to_tsv_rows rows preset =
      mapME (encodeRow preset) (rows.filter (fun r => !should_skip_row (rget r K_H))) ∧
    (∀ out, transform_to_tsv_rows rows preset = .ok out →
      out.length = (rows.filter (fun r => !should_skip_row (rget r K_H))).length) ∧
    (∀ e, transform_to_tsv_rows rows preset = .error e →
      ∃ r ∈ rows, should_skip_row (rget r K_H) = false ∧
        fill_category (rget r K_I) preset = .error e) := by
  refine ⟨transform_eq_mapME rows preset, ?_, ?_⟩
  · intro out hout
    rw [transform_eq_mapME] at hout
    exact mapME_ok_length hout
  · intro e he
    rw [transform_eq_mapME] at he
    obtain ⟨r, hr, henc⟩ := mapME_error he
    obtain ⟨hrm, hrs⟩ := List.mem_filter.mp hr
    refine ⟨r, hrm, ?_, encodeRow_error_iff.mp henc⟩
    revert hrs
    cases should_skip_row (rget r K_H) <;> simp

/-- Counterexample to C8 as stated: a row whose 取引内容 does not contain
「獲得」 can still yield no output row — an unknown store makes the whole
call raise `KeyError` instead of producing a row. -/
theorem transform_skip_rule_counterexample :
    should_skip_row (rget rowX K_H) = false ∧
    transform_to_tsv_rows [rowX] presetE = .error (KEYERR_PRE ++ "X".toList) :=
  ⟨rfl, rfl⟩

/-- Witness for the amended C8 on an empty row list. -/
theorem transform_skip_rule_witness :
    ([] : List (List Str)).length =
      (([] : List Row).filter (fun r => !should_skip_row (rget r K_H))).length :=
  (transform_skip_rule [] presetE).2.1 [] rfl

/-- Claim C5: a successful `run_encode` writes exactly one file, at the
input path with its suffix removed and `_encoded.tsv` appended, whose first
row is the eight TSV headers and whose every data row has eight fields with
an empty 小分類 (fourth) field and the row's stripped 取引先 as the メモ
(eighth) field. -/
theorem run_encode_success_output (csv_path : Str) (rows : List Row) (headers : List Str)
    (preset : Preset) (res : EncodeResult)
    (hok : run_encode csv_path rows headers preset = .ok res)
    (hs : res.success = true) :
    TSV_HEADERS = ["日付".toList, "資産".toList, "分類".toList, "小分類".toList,
      "内容".toList, "金額".toList, "収入/支出".toList, "メモ".toList] ∧
    res.written.isSome = true ∧
    ∀ pth content, res.written = some (pth, content) →
      pth = with_suffix_empty csv_path ++ ENCODED_SUFF ∧
      content.head? = some TSV_HEADERS ∧
      ∀ y ∈ content.tail, y.length = 8 ∧ y.getD 3 [] = [] ∧
        ∃ r ∈ rows, y.getD 7 [] = strip (rget r K_I) := by
  by_cases h1 : validate_headers headers = []
  · by_cases h2 : validate_unknown_stores (extract_store_names rows) preset = []
    · cases htr : transform_to_tsv_rows rows preset with
      | error e =>
        simp only [run_encode] at hok
        rw [if_pos h1, if_pos h2, htr] at hok
        cases hok
      | ok trs =>
        simp only [run_encode] at hok
        rw [if_pos h1, if_pos h2, htr] at hok
        injection hok with h'
        subst h'
        refine ⟨rfl, rfl, ?_⟩
        intro pth content hw
        injection hw with h''
        injection h'' with hA hB
        subst hA
        subst hB
        refine ⟨rfl, rfl, ?_⟩
        intro y hy
        have htr2 : mapME (encodeRow preset)
            (rows.filter (fun r => !should_skip_row (rget r K_H))) = .ok trs := by
          rw [← transform_eq_mapME]
          exact htr
        obtain ⟨r, hr, henc⟩ := mapME_ok_mem htr2 y (by simpa using hy)
        obtain ⟨hl, h3, h7⟩ := encodeRow_ok_shape henc
        exact ⟨hl, h3, r, (List.mem_filter.mp hr).1, h7⟩
    · simp only [run_encode] at hok
      rw [if_pos h1, if_neg h2] at hok
      injection hok with h'
      subst h'
      simp at hs
  · simp only [run_encode] at hok
    rw [if_neg h1] at hok
    injection hok with h'
    subst h'
    simp at hs

/-- Witness for C5 at an empty CSV: the written file exists in the result. -/
theorem run_encode_success_output_witness :
    resW.written.isSome = true :=
  (run_encode_success_output ("a.csv".toList) [] REQUIRED_HEADERS presetE resW rfl rfl).2.1

/-! ## Unknown-store validation lemmas (C2) -/

lemma containsS_iff {l : List Str} {x : Str} : l.contains x = true ↔ x ∈ l :=
  List.elem_iff

lemma dedupFirstAux_mem : ∀ (l seen : List Str) (x : Str),
    x ∈ dedupFirstAux seen l ↔ x ∈ l ∧ x ∉ seen := by
  intro l
  induction l with
  | nil => intro seen x; simp [dedupFirstAux]
  | cons a t ih =>
    intro seen x
    unfold dedupFirstAux
    by_cases ha : seen.contains a = true
    · rw [if_pos ha, ih]
      have haseen : a ∈ seen := containsS_iff.mp ha
      constructor
      · rintro ⟨hx, hns⟩
        exact ⟨List.mem_cons_of_mem _ hx, hns⟩
      · rintro ⟨hx, hns⟩
        rcases List.mem_cons.mp hx with rfl | hx'
        · exact absurd haseen hns
        · exact ⟨hx', hns⟩
    · rw [if_neg ha]
      have hanot : a ∉ seen := fun hc => ha (containsS_iff.mpr hc)
      simp only [List.mem_cons, ih]
      constructor
      · rintro (rfl | ⟨hx, hns⟩)
        · exact ⟨Or.inl rfl, hanot⟩
        · refine ⟨Or.inr hx, fun hc => hns (Or.inr hc)⟩
      · rintro ⟨rfl | hx, hns⟩
        · exact Or.inl rfl
        · by_cases hxa : x = a
          · exact Or.inl hxa
          · refine Or.inr ⟨hx, fun hc => ?_⟩
            rcases hc with h1 | h2
            · exact hxa h1
            · exact hns h2

lemma dedupFirstAux_nodup : ∀ (l seen : List Str), (dedupFirstAux seen l).Nodup := by
  intro l
  induction l with
  | nil => intro seen; exact List.nodup_nil
  | cons a t ih =>
    intro seen
    unfold dedupFirstAux
    by_cases ha : seen.contains a = true
    · rw [if_pos ha]; exact ih seen
    · rw [if_neg ha]
      refine List.nodup_cons.mpr ⟨?_, ih (a :: seen)⟩
      intro hc
      exact ((dedupFirstAux_mem t (a :: seen) a).mp hc).2 (by simp)

lemma validate_aux_eq (preset : Preset) : ∀ (l seen : List Str),
    validate_unknown_stores_aux preset seen l =
      (dedupFirstAux seen ((l.map strip).filter (fun n => !n.isEmpty))).filter
        (fun n => (match_store_key n preset).isNone) := by
  intro l
  induction l with
  | nil => intro seen; rfl
  | cons raw rest ih =>
    intro seen
    simp only [validate_unknown_stores_aux, List.map_cons, List.filter_cons]
    by_cases he : (strip raw).isEmpty = true
    · rw [if_pos (by simp [he]), he]
      simp only [Bool.not_true, Bool.false_eq_true, if_false]
      exact ih seen
    · have he' : (strip raw).isEmpty = false := by
        revert he; cases (strip raw).isEmpty <;> simp
      rw [he']
      simp only [Bool.not_false, if_true]
      by_cases hseen : seen.contains (strip raw) = true
      · rw [if_pos (by simp [he', containsS_iff.mp hseen])]
        unfold dedupFirstAux
        rw [if_pos hseen]
        exact ih seen
      · have hseenM : strip raw ∉ seen := fun hc => hseen (containsS_iff.mpr hc)
        rw [if_neg (by simp [he', hseenM])]
        unfold dedupFirstAux
        rw [if_neg hseen]
        by_cases hm : (match_store_key (strip raw) preset).isNone = true
        · rw [if_pos hm]
          simp only [List.filter_cons, hm, if_true]
          rw [ih (strip raw :: seen)]
        · have hm' : (match_store_key (strip raw) preset).isNone = false := by
            revert hm; cases (match_store_key (strip raw) preset).isNone <;> simp
          rw [if_neg (by simp [hm'])]
          simp only [List.filter_cons, hm', Bool.false_eq_true, if_false]
          exact ih (strip raw :: seen)

lemma extract_names_stripped (rows : List Row) :
    ((extract_store_names rows).map strip).filter (fun n => !n.isEmpty) =
      extract_store_names rows := by
  have h1 : (extract_store_names rows).map strip = extract_store_names rows := by
    have : ∀ a ∈ extract_store_names rows, strip a = id a := by
      intro a ha
      obtain ⟨ham, -⟩ := List.mem_filter.mp ha
      obtain ⟨r, -, hr⟩ := List.mem_map.mp ham
      rw [← hr, strip_idem]
      rfl
    rw [List.map_congr_left this, List.map_id]
  have h2 : (extract_store_names rows).filter (fun n => !n.isEmpty) =
      extract_store_names rows :=
    List.filter_eq_self.mpr (fun a ha => (List.mem_filter.mp ha).2)
  rw [h1, h2]

lemma validate_unknown_canonical (rows : List Row) (preset : Preset) :
    validate_unknown_stores (extract_store_names rows) preset =
      (dedupFirst ((rows.map (fun r => strip (rget r K_I))).filter
        (fun n => !n.isEmpty))).filter (fun n => (match_store_key n preset).isNone) := by
  rw [validate_unknown_stores, validate_aux_eq, dedupFirst, extract_names_stripped]
  rfl

/-- Claim C2: with valid headers and some stripped non-empty store name
matching no preset key, `run_encode` returns failure without writing, and
the reported list contains exactly the unmatched stripped store names, each
once, keeping the order of first occurrence, empty and whitespace-only
names excluded. -/
theorem run_encode_unknown_stores (csv_path : Str) (rows : List Row) (headers : List Str)
    (preset : Preset)
    (hh : validate_headers headers = [])
    (r0 : Row) (hr0 : r0 ∈ rows) (hr0ne : strip (rget r0 K_I) ≠ [])
    (hr0un : match_store_key (strip (rget r0 K_I)) preset = none) :
    run_encode csv_path rows headers preset =
      .ok ⟨false, UNKNOWN_MSG ::
        (validate_unknown_stores (extract_store_names rows) preset).map
          (fun u => DASH ++ u), none⟩ ∧
    validate_unknown_stores (extract_store_names rows) preset =
      (dedupFirst ((rows.map (fun r => strip (rget r K_I))).filter
        (fun n => !n.isEmpty))).filter (fun n => (match_store_key n preset).isNone) ∧
    (validate_unknown_stores (extract_store_names rows) preset).Nodup ∧
    ∀ u, u ∈ validate_unknown_stores (extract_store_names rows) preset ↔
      (u ∈ rows.map (fun r => strip (rget r K_I)) ∧ u ≠ [] ∧
        match_store_key u preset = none) := by
  have hcanon := validate_unknown_canonical rows preset
  have hmem : ∀ u, u ∈ validate_unknown_stores (extract_store_names rows) preset ↔
      (u ∈ rows.map (fun r => strip (rget r K_I)) ∧ u ≠ [] ∧
        match_store_key u preset = none) := by
    intro u
    rw [hcanon, List.mem_filter, dedupFirst, dedupFirstAux_mem, List.mem_filter]
    constructor
    · rintro ⟨⟨⟨hm, hne⟩, -⟩, hnone⟩
      refine ⟨hm, ?_, ?_⟩
      · intro hc; rw [hc] at hne; simp at hne
      · cases hmn : match_store_key u preset with
        | none => rfl
        | some k => rw [hmn] at hnone; simp at hnone
    · rintro ⟨hm, hne, hnone⟩
      refine ⟨⟨⟨hm, ?_⟩, by simp⟩, by simp [hnone]⟩
      simp [List.isEmpty_iff, hne]
  have hune : validate_unknown_stores (extract_store_names rows) preset ≠ [] := by
    have : strip (rget r0 K_I) ∈ validate_unknown_stores (extract_store_names rows) preset :=
      (hmem _).mpr ⟨List.mem_map.mpr ⟨r0, hr0, rfl⟩, hr0ne, hr0un⟩
    exact List.ne_nil_of_mem this
  refine ⟨?_, hcanon, ?_, hmem⟩
  · simp only [run_encode]
    rw [if_pos hh, if_neg hune]
  · rw [hcanon]
    exact List.Nodup.filter _ (dedupFirstAux_nodup _ [])

/-- Witness for C2: one row with an unregistered store against an empty
preset. -/
theorem run_encode_unknown_stores_witness :
    run_encode ("a.csv".toList) [rowX] REQUIRED_HEADERS presetE =
      .ok ⟨false, UNKNOWN_MSG ::
        (validate_unknown_stores (extract_store_names [rowX]) presetE).map
          (fun u => DASH ++ u), none⟩ :=
  (run_encode_unknown_stores ("a.csv".toList) [rowX] REQUIRED_HEADERS presetE
    (by decide) rowX (by decide) (by decide) (by decide)).1

/-! ## Preset upsert lemmas (C7) -/

lemma dictGet?_map_set {m : List (Str × CatSub)} {k : Str} {v : CatSub}
    (hany : m.any (fun p => decide (p.1 = k)) = true) :
    dictGet? (m.map (fun p => if p.1 = k then (k, v) else p)) k = some v := by
  induction m with
  | nil => simp at hany
  | cons p rest ih =>
    by_cases hp : p.1 = k
    · simp [dictGet?, hp]
    · have hany' : rest.any (fun p => decide (p.1 = k)) = true := by
        rcases List.any_eq_true.mp hany with ⟨x, hx, hxk⟩
        rcases List.mem_cons.mp hx with rfl | hx'
        · exact absurd (of_decide_eq_true hxk) hp
        · exact List.any_eq_true.mpr ⟨x, hx', hxk⟩
      simp [dictGet?, hp, ih hany']

lemma dictGet?_append_self {m : List (Str × CatSub)} {k : Str} {v : CatSub}
    (hnone : m.any (fun p => decide (p.1 = k)) = false) :
    dictGet? (m ++ [(k, v)]) k = some v := by
  induction m with
  | nil => simp [dictGet?]
  | cons p rest ih =>
    rw [List.any_cons, Bool.or_eq_false_iff] at hnone
    obtain ⟨h1, h2⟩ := hnone
    have hp : p.1 ≠ k := decide_eq_false_iff_not.mp h1
    simp [dictGet?, hp, ih h2]

lemma dictGet?_dictSet_self (m : List (Str × CatSub)) (k : Str) (v : CatSub) :
    dictGet? (dictSet m k v) k = some v := by
  unfold dictSet
  by_cases hany : m.any (fun p => decide (p.1 = k)) = true
  · rw [if_pos hany]; exact dictGet?_map_set hany
  · have hf : m.any (fun p => decide (p.1 = k)) = false := by
      revert hany; cases m.any (fun p => decide (p.1 = k)) <;> simp
    rw [if_neg hany]; exact dictGet?_append_self hf

lemma dictGet?_map_other {m : List (Str × CatSub)} {k : Str} {v : CatSub} {j : Str}
    (hjk : j ≠ k) :
    dictGet? (m.map (fun p => if p.1 = k then (k, v) else p)) j = dictGet? m j := by
  induction m with
  | nil => rfl
  | cons p rest ih =>
    rw [List.map_cons]
    by_cases hp : p.1 = k
    · rw [if_pos hp]
      have hkj : ¬ k = j := fun hc => hjk hc.symm
      have hpj : ¬ p.1 = j := by rw [hp]; exact hkj
      simp [dictGet?, hkj, hpj, ih]
    · rw [if_neg hp]
      by_cases hpj : p.1 = j
      · simp [dictGet?, hpj]
      · simp [dictGet?, hpj, ih]

lemma dictGet?_append_other {m : List (Str × CatSub)} {k : Str} {v : CatSub} {j : Str}
    (hjk : j ≠ k) :
    dictGet? (m ++ [(k, v)]) j = dictGet? m j := by
  have hkj : ¬ k = j := fun hc => hjk hc.symm
  induction m with
  | nil => simp [dictGet?, hkj]
  | cons p rest ih =>
    by_cases hpj : p.1 = j
    · simp [dictGet?, hpj]
    · simp [dictGet?, hpj, ih]

lemma dictGet?_dictSet_other {m : List (Str × CatSub)} {k : Str} {v : CatSub} {j : Str}
    (hjk : j ≠ k) :
    dictGet? (dictSet m k v) j = dictGet? m j := by
  unfold dictSet
  by_cases hany : m.any (fun p => decide (p.1 = k)) = true
  · rw [if_pos hany]; exact dictGet?_map_other hjk
  · rw [if_neg hany]; exact dictGet?_append_other hjk

lemma dictSet_append_of_not_mem {m : List (Str × CatSub)} {k : Str} {v : CatSub}
    (h : ∀ p ∈ m, p.1 ≠ k) : dictSet m k v = m ++ [(k, v)] := by
  unfold dictSet
  rw [if_neg]
  intro hc
  obtain ⟨p, hp, hd⟩ := List.any_eq_true.mp hc
  exact h p hp (of_decide_eq_true hd)

lemma normalize_foldl_aux : ∀ (m acc : List (Str × CatSub)),
    (∀ p ∈ m, strip p.1 = p.1) → (∀ p ∈ m, ∀ q ∈ acc, q.1 ≠ p.1) →
    (m.map Prod.fst).Nodup →
    m.foldl (fun acc kv => dictSet acc (strip kv.1) (strip kv.2.1, strip kv.2.2)) acc =
      acc ++ m.map (fun kv => (kv.1, (strip kv.2.1, strip kv.2.2))) := by
  intro m
  induction m with
  | nil => intro acc _ _ _; simp
  | cons kv rest ih =>
    intro acc hstrip hdisj hnodup
    rw [List.foldl_cons]
    have hks : strip kv.1 = kv.1 := hstrip kv (by simp)
    have hset : dictSet acc (strip kv.1) (strip kv.2.1, strip kv.2.2) =
        acc ++ [(kv.1, (strip kv.2.1, strip kv.2.2))] := by
      rw [hks]
      exact dictSet_append_of_not_mem (fun q hq => hdisj kv (by simp) q hq)
    rw [hset]
    have hknotrest : kv.1 ∉ rest.map Prod.fst := (List.nodup_cons.mp (by simpa using hnodup)).1
    rw [ih (acc ++ [(kv.1, (strip kv.2.1, strip kv.2.2))])
      (fun p hp => hstrip p (List.mem_cons_of_mem _ hp))
      ?_ (List.nodup_cons.mp (by simpa using hnodup)).2]
    · simp
    · intro p hp q hq
      rcases List.mem_append.mp hq with h1 | h2
      · exact hdisj p (List.mem_cons_of_mem _ hp) q h1
      · rw [List.mem_singleton.mp h2]
        intro hc
        exact hknotrest (hc ▸ List.mem_map.mpr ⟨p, hp, rfl⟩)

lemma normalize_of_stripped {m : List (Str × CatSub)}
    (hstrip : ∀ p ∈ m, strip p.1 = p.1) (hnodup : (m.map Prod.fst).Nodup) :
    normalizeMapping m = m.map (fun kv => (kv.1, (strip kv.2.1, strip kv.2.2))) := by
  unfold normalizeMapping
  have := normalize_foldl_aux m [] hstrip (by simp) hnodup
  simpa using this

lemma dictGet?_map_values (m : List (Str × CatSub)) (k : Str) :
    dictGet? (m.map (fun kv => (kv.1, (strip kv.2.1, strip kv.2.2)))) k =
      (dictGet? m k).map (fun v => (strip v.1, strip v.2)) := by
  induction m with
  | nil => rfl
  | cons p rest ih =>
    by_cases hp : p.1 = k
    · simp [dictGet?, hp]
    · simp [dictGet?, hp, ih]

lemma dictSet_keys_stripped {m : List (Str × CatSub)} {k : Str} {v : CatSub}
    (hstrip : ∀ p ∈ m, strip p.1 = p.1) (hks : strip k = k) :
    ∀ p ∈ dictSet m k v, strip p.1 = p.1 := by
  intro p hp
  unfold dictSet at hp
  by_cases hany : m.any (fun q => decide (q.1 = k)) = true
  · rw [if_pos hany] at hp
    rcases List.mem_map.mp hp with ⟨q, hq, hqp⟩
    by_cases hqk : q.1 = k
    · rw [if_pos hqk] at hqp; rw [← hqp]; exact hks
    · rw [if_neg hqk] at hqp; rw [← hqp]; exact hstrip q hq
  · rw [if_neg hany] at hp
    rcases List.mem_append.mp hp with h1 | h2
    · exact hstrip p h1
    · rw [List.mem_singleton.mp h2]; exact hks

lemma map_set_keys (m : List (Str × CatSub)) (k : Str) (v : CatSub) :
    ((m.map (fun p => if p.1 = k then (k, v) else p)).map Prod.fst) = m.map Prod.fst := by
  induction m with
  | nil => rfl
  | cons p rest ih =>
    simp only [List.map_cons, ih]
    by_cases hp : p.1 = k
    · rw [if_pos hp, hp]
    · rw [if_neg hp]

lemma dictSet_keys_nodup {m : List (Str × CatSub)} {k : Str} {v : CatSub}
    (hnodup : (m.map Prod.fst).Nodup) :
    ((dictSet m k v).map Prod.fst).Nodup := by
  unfold dictSet
  by_cases hany : m.any (fun q => decide (q.1 = k)) = true
  · rw [if_pos hany]
    rw [map_set_keys]; exact hnodup
  · rw [if_neg hany, List.map_append]
    have hknot : k ∉ m.map Prod.fst := by
      intro hc
      rcases List.mem_map.mp hc with ⟨q, hq, hqk⟩
      exact hany (List.any_eq_true.mpr ⟨q, hq, decide_eq_true hqk⟩)
    rw [List.nodup_append]
    exact ⟨hnodup, by simp, by simp [List.disjoint_singleton, hknot]⟩

/-- Counterexample to C7 as stated: a well-formed raw YAML mapping whose
keys 「A」 and 「 A」 collide after stripping.  Upserting key 「A」 updates
the first raw entry in place, but `load_preset` normalization lets the
later raw entry 「 A」 overwrite it, so the loaded value under 「A」 is not
the upserted pair. -/
theorem upsert_then_load_counterexample :
    upsert_store_mapping rawEdge ("A".toList) ("c".toList) ("s".toList) = .ok rawEdge' ∧
    dictGet? (load_preset [] rawEdge').store_mapping ("A".toList) =
      some ("z".toList, "w".toList) ∧
    ("z".toList, "w".toList) ≠ (strip ("c".toList), strip ("s".toList)) :=
  ⟨rfl, rfl, by decide⟩

/-- Claim C7 (amended): for raw preset mappings whose keys are already
stripped and pairwise distinct (every mapping `load_preset` would produce,
in particular), upserting a store key and re-loading yields the stripped
category pair under the stripped key and leaves every other key's entry
unchanged. -/
theorem upsert_then_load (name : Str) (raw : List (Str × CatSub))
    (store_key category sub_category : Str)
    (hstrip : ∀ p ∈ raw, strip p.1 = p.1)
    (hnodup : (raw.map Prod.fst).Nodup)
    (hk : strip store_key ≠ []) :
    upsert_store_mapping raw store_key category sub_category =
      .ok (dictSet raw (strip store_key) (strip category, strip sub_category)) ∧
    dictGet? (load_preset name
        (dictSet raw (strip store_key) (strip category, strip sub_category))).store_mapping
      (strip store_key) = some (strip category, strip sub_category) ∧
    ∀ k, k ≠ strip store_key →
      dictGet? (load_preset name
          (dictSet raw (strip store_key) (strip category, strip sub_category))).store_mapping
        k = dictGet? (load_preset name raw).store_mapping k := by
  have hstrip' : ∀ p ∈ dictSet raw (strip store_key) (strip category, strip sub_category),
      strip p.1 = p.1 :=
    dictSet_keys_stripped hstrip (strip_idem store_key)
  have hnodup' : ((dictSet raw (strip store_key)
      (strip category, strip sub_category)).map Prod.fst).Nodup :=
    dictSet_keys_nodup hnodup
  refine ⟨?_, ?_, ?_⟩
  · simp only [upsert_store_mapping]
    rw [if_neg hk]
  · simp only [load_preset]
    rw [normalize_of_stripped hstrip' hnodup', dictGet?_map_values, dictGet?_dictSet_self]
    simp [strip_idem]
  · intro k hkk
    simp only [load_preset]
    rw [normalize_of_stripped hstrip' hnodup', dictGet?_map_values,
      dictGet?_dictSet_other hkk, normalize_of_stripped hstrip hnodup,
      dictGet?_map_values]

/-- Witness for the amended C7: adding key 「B」 to a one-entry stripped
mapping and re-loading finds the stripped values under 「B」. -/
theorem upsert_then_load_witness :
    dictGet? (load_preset []
        (dictSet rawPlain (strip ("B".toList))
          (strip (" c ".toList), strip ("d".toList)))).store_mapping
      (strip ("B".toList)) = some (strip (" c ".toList), strip ("d".toList)) :=
  (upsert_then_load [] rawPlain ("B".toList) (" c ".toList) ("d".toList)
    (by decide) (by decide) (by decide)).2.1
